import Mathlib

set_option autoImplicit false

namespace AarchibaTools

/-!
Shallow embedding of the staleness-checker core of `aarchiba_tools`
(`src/aarchiba_tools/__init__.py`): `ensure_list`, `need_rerun` and
`write_file_if_changed`.

The filesystem is modelled as an association list from paths to files;
a file carries its content (a string; the text/binary distinction of the
Python code is not observable at this level, both compare whole contents
for equality) and its modification timestamp (an integer).  Every
filesystem primitive threads the filesystem state explicitly, so that
read-only behaviour is a provable property of the embedded functions.
Open file descriptors (which Python's `os.path.exists` would consult for
an integer argument) are not modelled; no claim depends on them.
-/

/-- A filesystem path, in its string form. -/
abbrev Path := String

/-- A file on disk: its content and its modification timestamp. -/
structure File where
  content : String
  mtime : Int
  deriving Repr, DecidableEq

/-- The filesystem state: a finite map from paths to files, as an
association list. -/
abbrev FSState := List (Path × File)

/-- Look a path up in the filesystem state (first matching entry). -/
def fsLookup : FSState → Path → Option File
  | [], _ => none
  | (q, f) :: rest, p => if q = p then some f else fsLookup rest p

/-- Overwrite (or create) the file at a path. -/
def setFile : FSState → Path → File → FSState
  | [], p, f => [(p, f)]
  | (q, g) :: rest, p, f =>
    if q = p then (p, f) :: rest else (q, g) :: setFile rest p f

/-- A Python value that may appear as an element of the `inputs` or
`outputs` argument: a string or an integer. -/
inductive PyVal where
  | str (s : String)
  | int (n : Int)
  deriving Repr, DecidableEq

/-- An argument to `need_rerun`: a bare scalar (string or integer) or a
sequence of such values. -/
inductive Arg where
  | scalar (v : PyVal)
  | seq (l : List PyVal)
  deriving Repr, DecidableEq

/-- Embedding of `ensure_list` (source lines 125-129): a bare string or
integer becomes a one-element list; a sequence is returned unchanged. -/
def ensure_list : Arg → List PyVal
  | .scalar v => [v]
  | .seq l => l

/-- The Python exceptions the embedded fragment can raise. -/
inductive PyErr where
  | valueError (msg : String)
  | attributeError (msg : String)
  | fileNotFound (p : Path)
  deriving Repr, DecidableEq

/-- Whether one character list starts with another. -/
def listStartsWith : List Char → List Char → Bool
  | _, [] => true
  | [], _ :: _ => false
  | c :: cs, d :: ds => c = d && listStartsWith cs ds

/-- Python's `s.startswith(p)`. -/
def pyStartswith (s p : String) : Bool :=
  listStartsWith s.data p.data

/-- Python's slice `s[1:]`: everything after the first character. -/
def pyDrop1 (s : String) : String :=
  String.mk (s.data.drop 1)

/-- The whitespace characters removed by Python's `str.strip()`. -/
def isPyWhitespace (c : Char) : Bool :=
  c = ' ' || c = '\t' || c = '\n' || c = '\r' || c = '\x0b' || c = '\x0c'

/-- Python's `s.strip()`: remove leading and trailing whitespace. -/
def pyStrip (s : String) : String :=
  String.mk (((s.data.dropWhile isPyWhitespace).reverse.dropWhile
    isPyWhitespace).reverse)

/-- Helper for `pyReadlines`: split after every newline character,
keeping the newline at the end of each piece, with `acc` holding the
(reversed) characters of the current unfinished line. -/
def readlinesAux : List Char → List Char → List (List Char)
  | [], acc => if acc.isEmpty then [] else [acc.reverse]
  | c :: cs, acc =>
    if c = '\n' then (acc.reverse ++ ['\n']) :: readlinesAux cs []
    else readlinesAux cs (c :: acc)

/-- Python's `f.readlines()` on a file with the given content: the list
of lines, each keeping its trailing newline; a final fragment without a
newline is its own line; an empty content yields no lines. -/
def pyReadlines (content : String) : List String :=
  (readlinesAux content.data []).map String.mk

/-- The lines the list-file loop of `need_rerun` appends for one list
file: `l.strip()` for every `l` in `readlines()` (source lines
161-162). -/
def pyReadlinesStripped (content : String) : List String :=
  (pyReadlines content).map pyStrip

/-- Embedding of the input-expansion loop of `need_rerun` (source lines
157-164): each entry starting with `"@"` is replaced by all stripped
lines of the named file; other string entries pass through; an integer
entry raises `AttributeError` at `i.startswith`; a missing list file
raises at `open`. -/
def expandInputs (s : FSState) : List PyVal → FSState × Except PyErr (List Path)
  | [] => (s, .ok [])
  | .int _ :: _ =>
    (s, .error (.attributeError "int object has no attribute startswith"))
  | .str i :: rest =>
    if pyStartswith i "@" then
      match fsLookup s (pyDrop1 i) with
      | none => (s, .error (.fileNotFound (pyDrop1 i)))
      | some f =>
        match expandInputs s rest with
        | (s1, .error e) => (s1, .error e)
        | (s1, .ok more) => (s1, .ok (pyReadlinesStripped f.content ++ more))
    else
      match expandInputs s rest with
      | (s1, .error e) => (s1, .error e)
      | (s1, .ok more) => (s1, .ok (i :: more))

/-- One step of the oldest-output bookkeeping of `need_rerun` (source
lines 173-176): `none` plays the role of the initial `np.inf`; a
strictly smaller timestamp replaces the stored pair. -/
def updateOldest : Option (Int × Path) → Int → Path → Option (Int × Path)
  | none, t, n => some (t, n)
  | some (m, nm), t, n => if t < m then some (t, n) else some (m, nm)

/-- Embedding of the output loop of `need_rerun` (source lines 169-176):
result `none` means the loop returned `True` early because an output was
missing; `some acc` carries the oldest-output accumulator (`none` for
`np.inf`).  An integer output has no corresponding path, so the
existence check fails for it. -/
def scanOutputs (s : FSState) :
    List PyVal → Option (Int × Path) → FSState × Option (Option (Int × Path))
  | [], acc => (s, some acc)
  | .int _ :: _, _ => (s, none)
  | .str o :: rest, acc =>
    match fsLookup s o with
    | none => (s, none)
    | some f => scanOutputs s rest (updateOldest acc f.mtime o)

/-- The comparison `os.path.getmtime(i) > oldest_out` of source line
179, with `none` standing for `np.inf` (never exceeded). -/
def gtOldest (t : Int) : Option (Int × Path) → Bool
  | none => false
  | some (m, _) => m < t

/-- Embedding of the input loop of `need_rerun` (source lines 178-190):
return `True` at the first input strictly newer than the oldest output;
`os.path.getmtime` raises on a missing input. -/
def scanInputs (s : FSState) :
    List Path → Option (Int × Path) → FSState × Except PyErr Bool
  | [], _ => (s, .ok false)
  | i :: rest, acc =>
    match fsLookup s i with
    | none => (s, .error (.fileNotFound i))
    | some f =>
      if gtOldest f.mtime acc then (s, .ok true) else scanInputs s rest acc

/-- Embedding of `need_rerun` (source lines 132-190): normalize both
arguments with `ensure_list`, reject an empty output list, expand
list-file inputs, return `True` if an output is missing, otherwise
return whether some input is strictly newer than the oldest output. -/
def need_rerun (s : FSState) (inputs outputs : Arg) : FSState × Except PyErr Bool :=
  let ins := ensure_list inputs
  let outs := ensure_list outputs
  if outs.length = 0 then
    (s, .error (.valueError "No outputs specified"))
  else
    match expandInputs s ins with
    | (s1, .error e) => (s1, .error e)
    | (s1, .ok paths) =>
      match scanOutputs s1 outs none with
      | (s2, none) => (s2, .ok true)
      | (s2, some oldest) => scanInputs s2 paths oldest

/-- Embedding of `write_file_if_changed` (source lines 193-209): if the
file is missing or its content differs from `content`, overwrite it (the
operating system stamps the written file with the current time `now`);
otherwise leave the filesystem untouched. -/
def write_file_if_changed (s : FSState) (fname : Path) (content : String)
    (now : Int) : FSState :=
  match fsLookup s fname with
  | none => setFile s fname ⟨content, now⟩
  | some f =>
    if f.content ≠ content then setFile s fname ⟨content, now⟩ else s

/-- Python's `os.path.exists` on a value of the argument list: a string
path exists when the filesystem maps it; an integer argument would
consult open file descriptors, which are not modelled. -/
def pyExists (s : FSState) : PyVal → Bool
  | .str p => (fsLookup s p).isSome
  | .int _ => false

/-- The modification timestamp `os.path.getmtime` would report for a
value of the argument list, when the path exists. -/
def pyMtime (s : FSState) : PyVal → Option Int
  | .str p => (fsLookup s p).map File.mtime
  | .int _ => none

/-- Value-level view of `updateOldest`: combine the current oldest
timestamp (`none` for `np.inf`) with a further timestamp. -/
def ominUpd : Option Int → Int → Option Int
  | none, t => some t
  | some m, t => some (min m t)

/-- Fold `ominUpd` over a list of timestamps. -/
def ominFold (a : Option Int) (ts : List Int) : Option Int :=
  ts.foldl ominUpd a

/-- The modification timestamps of the existing outputs, in order. -/
def mtimes (s : FSState) (l : List PyVal) : List Int :=
  l.filterMap (pyMtime s)

deriving instance DecidableEq for Except

theorem expandInputs_fst (s : FSState) (l : List PyVal) :
    (expandInputs s l).1 = s := by
  induction l with
  | nil => rfl
  | cons v rest ih =>
    cases v with
    | int n => rfl
    | str i =>
      rw [expandInputs]
      split
      · cases hl : fsLookup s (pyDrop1 i) with
        | none => rfl
        | some f =>
          rcases h : expandInputs s rest with ⟨s1, r⟩
          rw [h] at ih
          cases r <;> simpa using ih
      · rcases h : expandInputs s rest with ⟨s1, r⟩
        rw [h] at ih
        cases r <;> simpa using ih

theorem scanOutputs_fst (s : FSState) (l : List PyVal)
    (acc : Option (Int × Path)) : (scanOutputs s l acc).1 = s := by
  induction l generalizing acc with
  | nil => rfl
  | cons v rest ih =>
    cases v with
    | int n => rfl
    | str o =>
      rw [scanOutputs]
      cases fsLookup s o with
      | none => rfl
      | some f => exact ih _

theorem scanInputs_fst (s : FSState) (l : List Path)
    (acc : Option (Int × Path)) : (scanInputs s l acc).1 = s := by
  induction l with
  | nil => rfl
  | cons i rest ih =>
    rw [scanInputs]
    cases fsLookup s i with
    | none => rfl
    | some f =>
      by_cases h : gtOldest f.mtime acc = true
      · simp [h]
      · simp only [Bool.not_eq_true] at h
        simp [h, ih]

theorem fsLookup_setFile_self (s : FSState) (p : Path) (f : File) :
    fsLookup (setFile s p f) p = some f := by
  induction s with
  | nil => simp [setFile, fsLookup]
  | cons hd tl ih =>
    obtain ⟨q, g⟩ := hd
    by_cases h : q = p <;> simp [setFile, fsLookup, h, ih]

theorem write_file_if_changed_of_absent {s : FSState} {p : Path} {c : String}
    {now : Int} (h : fsLookup s p = none) :
    write_file_if_changed s p c now = setFile s p ⟨c, now⟩ := by
  unfold write_file_if_changed
  rw [h]

theorem write_file_if_changed_of_diff {s : FSState} {p : Path} {f : File}
    {c : String} {now : Int} (h : fsLookup s p = some f)
    (hc : f.content ≠ c) :
    write_file_if_changed s p c now = setFile s p ⟨c, now⟩ := by
  unfold write_file_if_changed
  rw [h]
  simp [hc]

theorem write_file_if_changed_of_same {s : FSState} {p : Path} {f : File}
    {c : String} {now : Int} (h : fsLookup s p = some f)
    (hc : f.content = c) :
    write_file_if_changed s p c now = s := by
  unfold write_file_if_changed
  rw [h]
  simp [hc]

/-- C6: a bare string or integer scalar passed in the `inputs` position
or in the `outputs` position of `need_rerun` behaves exactly like the
one-element sequence containing that value. -/
theorem need_rerun_scalar_like_singleton (s : FSState) (v : PyVal)
    (ins outs : Arg) :
    need_rerun s (Arg.scalar v) outs = need_rerun s (Arg.seq [v]) outs ∧
    need_rerun s ins (Arg.scalar v) = need_rerun s ins (Arg.seq [v]) :=
  ⟨rfl, rfl⟩

/-- C7: `write_file_if_changed` is idempotent — a second call with the
same content leaves the filesystem exactly as the first call left it, so
a disk write happens at most once. -/
theorem write_file_if_changed_idempotent (s : FSState) (p : Path)
    (c : String) (n1 n2 : Int) :
    write_file_if_changed (write_file_if_changed s p c n1) p c n2 =
      write_file_if_changed s p c n1 := by
  cases h : fsLookup s p with
  | none =>
    rw [write_file_if_changed_of_absent h,
      write_file_if_changed_of_same (fsLookup_setFile_self s p ⟨c, n1⟩) rfl]
  | some f =>
    by_cases hc : f.content = c
    · rw [write_file_if_changed_of_same h hc,
        write_file_if_changed_of_same h hc]
    · rw [write_file_if_changed_of_diff h hc,
        write_file_if_changed_of_same (fsLookup_setFile_self s p ⟨c, n1⟩) rfl]

/-- C8: `need_rerun` never modifies the filesystem — whatever its
arguments and whether it returns a boolean or raises, the filesystem
state after the call is the state before it. -/
theorem need_rerun_reads_only (s : FSState) (inputs outputs : Arg) :
    (need_rerun s inputs outputs).1 = s := by
  rw [need_rerun]
  split
  · rfl
  · have h1 : expandInputs s (ensure_list inputs) =
        (s, (expandInputs s (ensure_list inputs)).2) := by
      conv_lhs => rw [← Prod.mk.eta (p := expandInputs s (ensure_list inputs))]
      rw [expandInputs_fst]
    cases hr : (expandInputs s (ensure_list inputs)).2 with
    | error e =>
      rw [hr] at h1
      simp only [h1]
    | ok paths =>
      rw [hr] at h1
      simp only [h1]
      have h2 : scanOutputs s (ensure_list outputs) none =
          (s, (scanOutputs s (ensure_list outputs) none).2) := by
        conv_lhs => rw [← Prod.mk.eta (p := scanOutputs s (ensure_list outputs) none)]
        rw [scanOutputs_fst]
      cases hr2 : (scanOutputs s (ensure_list outputs) none).2 with
      | none =>
        rw [hr2] at h2
        simp only [h2]
      | some oldest =>
        rw [hr2] at h2
        simp only [h2]
        exact scanInputs_fst s paths oldest

/-- C5 counterexample: with an empty output list the error message is
"No outputs specified" (capital "N"), not "no outputs specified" as the
claim states. -/
theorem need_rerun_empty_outputs_cex :
    need_rerun [] (Arg.seq [PyVal.str "x"]) (Arg.seq []) ≠
      ([], Except.error (PyErr.valueError "no outputs specified")) := by
  decide

/-- C5 (amended): whenever the normalized outputs are empty,
`need_rerun` fails with `ValueError "No outputs specified"`, for every
filesystem state — in particular without consulting the filesystem. -/
theorem need_rerun_empty_outputs (s : FSState) (ins outs : Arg)
    (h : ensure_list outs = []) :
    need_rerun s ins outs =
      (s, Except.error (PyErr.valueError "No outputs specified")) := by
  rw [need_rerun, h]
  rfl

/-- C5 witness: the amended theorem applied to empty-sequence outputs. -/
theorem need_rerun_empty_outputs_witness :
    ensure_list (Arg.seq []) = [] ∧
    need_rerun [] (Arg.seq []) (Arg.seq []) =
      ([], Except.error (PyErr.valueError "No outputs specified")) :=
  ⟨rfl, need_rerun_empty_outputs [] (Arg.seq []) (Arg.seq []) rfl⟩

/-- C4: for an existing input path `i` (a genuine path, i.e. not a
list-file reference beginning with `"@"`) and an existing output path
`o` with equal modification timestamps, `need_rerun([i], [o])` is
`false`: equal timestamps never trigger a rerun. -/
theorem need_rerun_equal_mtimes (s : FSState) (i o : Path) (fi fo : File)
    (hmark : pyStartswith i "@" = false)
    (hi : fsLookup s i = some fi) (ho : fsLookup s o = some fo)
    (heq : fi.mtime = fo.mtime) :
    need_rerun s (Arg.seq [PyVal.str i]) (Arg.seq [PyVal.str o]) =
      (s, Except.ok false) := by
  have hexp : expandInputs s [PyVal.str i] = (s, Except.ok [i]) := by
    rw [expandInputs, hmark]
    rfl
  have hscan : scanOutputs s [PyVal.str o] none = (s, some (some (fo.mtime, o))) := by
    rw [scanOutputs, ho]
    rfl
  have hgt : gtOldest fi.mtime (some (fo.mtime, o)) = false := by
    simp [gtOldest, heq]
  rw [need_rerun]
  simp only [ensure_list, List.length_cons, List.length_nil]
  rw [if_neg (by omega)]
  simp only [hexp, hscan]
  simp only [scanInputs, hi, hgt]
  simp [scanInputs]

/-- C4 witness: two distinct files with equal timestamps. -/
theorem need_rerun_equal_mtimes_witness :
    pyStartswith "a" "@" = false ∧
    fsLookup [("a", File.mk "x" 4), ("b", File.mk "y" 4)] "a" = some (File.mk "x" 4) ∧
    fsLookup [("a", File.mk "x" 4), ("b", File.mk "y" 4)] "b" = some (File.mk "y" 4) ∧
    need_rerun [("a", File.mk "x" 4), ("b", File.mk "y" 4)]
        (Arg.seq [PyVal.str "a"]) (Arg.seq [PyVal.str "b"]) =
      ([("a", File.mk "x" 4), ("b", File.mk "y" 4)], Except.ok false) :=
  ⟨by decide, by decide, by decide,
    need_rerun_equal_mtimes _ "a" "b" (File.mk "x" 4) (File.mk "y" 4)
      (by decide) (by decide) (by decide) rfl⟩

/-- C3: after `write_file_if_changed`, the file exists with the given
content, and its modification timestamp is unchanged exactly when the
prior content already equalled the new content (assuming the clock has
advanced past the file's stored timestamp). -/
theorem write_file_if_changed_spec (s : FSState) (fname : Path)
    (content : String) (now : Int)
    (h : ∀ f, fsLookup s fname = some f → f.mtime < now) :
    (∃ f, fsLookup (write_file_if_changed s fname content now) fname = some f ∧
        f.content = content) ∧
    ((fsLookup (write_file_if_changed s fname content now) fname).map File.mtime =
        (fsLookup s fname).map File.mtime ↔
      (fsLookup s fname).map File.content = some content) := by
  cases hl : fsLookup s fname with
  | none =>
    rw [write_file_if_changed_of_absent hl]
    refine ⟨⟨⟨content, now⟩, fsLookup_setFile_self s fname _, rfl⟩, ?_⟩
    rw [fsLookup_setFile_self]
    simp
  | some f =>
    by_cases hc : f.content = content
    · rw [write_file_if_changed_of_same hl hc]
      exact ⟨⟨f, hl, hc⟩, by rw [hl]; simp [hc]⟩
    · have hm := h f hl
      rw [write_file_if_changed_of_diff hl hc]
      refine ⟨⟨⟨content, now⟩, fsLookup_setFile_self s fname _, rfl⟩, ?_⟩
      rw [fsLookup_setFile_self]
      simp only [Option.map_some']
      constructor
      · intro hmt
        exact absurd (Option.some.inj hmt) (by omega)
      · intro hct
        exact absurd (Option.some.inj hct) hc

/-- C3 witness: overwriting stale content bumps the timestamp. -/
theorem write_file_if_changed_spec_witness :
    (∀ f, fsLookup [("f", File.mk "old" 3)] "f" = some f → f.mtime < 7) ∧
    ((∃ f, fsLookup (write_file_if_changed [("f", File.mk "old" 3)] "f" "new" 7) "f" =
          some f ∧ f.content = "new") ∧
      ((fsLookup (write_file_if_changed [("f", File.mk "old" 3)] "f" "new" 7) "f").map
            File.mtime =
          (fsLookup [("f", File.mk "old" 3)] "f").map File.mtime ↔
        (fsLookup [("f", File.mk "old" 3)] "f").map File.content = some "new")) := by
  have hyp : ∀ f, fsLookup [("f", File.mk "old" 3)] "f" = some f → f.mtime < 7 := by
    intro f hf
    have hfe : File.mk "old" 3 = f := by
      simpa [fsLookup] using hf
    rw [← hfe]
    decide
  exact ⟨hyp, write_file_if_changed_spec _ "f" "new" 7 hyp⟩

theorem expandInputs_append (s : FSState) (pre post : List PyVal)
    (preExp : List Path)
    (hpre : expandInputs s pre = (s, Except.ok preExp)) :
    expandInputs s (pre ++ post) =
      (s, ((expandInputs s post).2).map (preExp ++ ·)) := by
  induction pre generalizing preExp with
  | nil =>
    have hnil : preExp = [] := by
      have h := hpre
      rw [expandInputs] at h
      simpa using h.symm
    subst hnil
    rw [List.nil_append]
    conv_lhs => rw [← Prod.mk.eta (p := expandInputs s post)]
    rw [expandInputs_fst]
    cases (expandInputs s post).2 <;> simp [Except.map]
  | cons v rest ih =>
    cases v with
    | int n =>
      rw [expandInputs] at hpre
      simp at hpre
    | str i =>
      rcases he : expandInputs s rest with ⟨s1, r⟩
      have hs1 : s = s1 := by
        have h := expandInputs_fst s rest
        rw [he] at h
        exact h.symm
      subst hs1
      by_cases hst : pyStartswith i "@" = true
      · rw [expandInputs, if_pos hst] at hpre
        cases hf : fsLookup s (pyDrop1 i) with
        | none =>
          rw [hf] at hpre
          simp at hpre
        | some f =>
          rw [hf, he] at hpre
          cases r with
          | error e => simp at hpre
          | ok more =>
            have hpe : preExp = pyReadlinesStripped f.content ++ more := by
              simpa using hpre.symm
            have ihm := ih more he
            rw [List.cons_append, expandInputs, if_pos hst]
            simp only [hf, ihm]
            cases hp : (expandInputs s post).2 with
            | error e => simp [Except.map]
            | ok p2 => simp [Except.map, hpe, List.append_assoc]
      · rw [expandInputs, if_neg hst, he] at hpre
        cases r with
        | error e => simp at hpre
        | ok more =>
          have hpe : preExp = i :: more := by
            simpa using hpre.symm
          have ihm := ih more he
          rw [List.cons_append, expandInputs, if_neg hst]
          simp only [ihm]
          cases hp : (expandInputs s post).2 with
          | error e => simp [Except.map]
          | ok p2 => simp [Except.map, hpe]

theorem expandInputs_append_ok (s : FSState) (pre post : List PyVal)
    (preExp postExp : List Path)
    (hpre : expandInputs s pre = (s, Except.ok preExp))
    (hpost : expandInputs s post = (s, Except.ok postExp)) :
    expandInputs s (pre ++ post) = (s, Except.ok (preExp ++ postExp)) := by
  rw [expandInputs_append s pre post preExp hpre, hpost]
  rfl

theorem expandInputs_append_error (s : FSState) (pre post : List PyVal)
    (preExp : List Path) (e : PyErr)
    (hpre : expandInputs s pre = (s, Except.ok preExp))
    (hpost : expandInputs s post = (s, Except.error e)) :
    expandInputs s (pre ++ post) = (s, Except.error e) := by
  rw [expandInputs_append s pre post preExp hpre, hpost]
  rfl

/-- C2 counterexample: a list file whose content has a blank line and a
comment line.  The expansion keeps the blank line (as the empty string)
and the comment line; it is not the filtered list `["a", "b"]` the claim
predicts. -/
theorem expand_list_file_cex :
    expandInputs [("lst", File.mk "a\n\n# c\nb\n" 0)] [PyVal.str "@lst"] =
      ([("lst", File.mk "a\n\n# c\nb\n" 0)], Except.ok ["a", "", "# c", "b"]) ∧
    expandInputs [("lst", File.mk "a\n\n# c\nb\n" 0)] [PyVal.str "@lst"] ≠
      ([("lst", File.mk "a\n\n# c\nb\n" 0)], Except.ok ["a", "b"]) := by
  constructor
  · decide
  · decide

/-- C2 (amended): an input entry of `need_rerun` beginning with `"@"`
expands to all lines of the referenced file with leading/trailing
whitespace trimmed — blank lines (which become empty strings) and
comment lines included — inserted in file order in place of that single
entry. -/
theorem expand_list_file_amended (s : FSState) (pre post : List PyVal)
    (i : Path) (f : File) (preExp postExp : List Path)
    (hi : pyStartswith i "@" = true)
    (hf : fsLookup s (pyDrop1 i) = some f)
    (hpre : expandInputs s pre = (s, Except.ok preExp))
    (hpost : expandInputs s post = (s, Except.ok postExp)) :
    expandInputs s (pre ++ PyVal.str i :: post) =
      (s, Except.ok (preExp ++ (pyReadlinesStripped f.content ++ postExp))) := by
  have hmid : expandInputs s (PyVal.str i :: post) =
      (s, Except.ok (pyReadlinesStripped f.content ++ postExp)) := by
    rw [expandInputs, hi]
    simp only [if_true, hf, hpost]
  exact expandInputs_append_ok s pre (PyVal.str i :: post) preExp
    (pyReadlinesStripped f.content ++ postExp) hpre hmid

/-- C2 witness: the amended expansion on a concrete list file
surrounded by ordinary entries. -/
theorem expand_list_file_amended_witness :
    pyStartswith "@lst" "@" = true ∧
    fsLookup [("lst", File.mk " a \nb\n" 0)] (pyDrop1 "@lst") =
      some (File.mk " a \nb\n" 0) ∧
    expandInputs [("lst", File.mk " a \nb\n" 0)] [PyVal.str "x"] =
      ([("lst", File.mk " a \nb\n" 0)], Except.ok ["x"]) ∧
    expandInputs [("lst", File.mk " a \nb\n" 0)] [PyVal.str "y"] =
      ([("lst", File.mk " a \nb\n" 0)], Except.ok ["y"]) ∧
    expandInputs [("lst", File.mk " a \nb\n" 0)]
        ([PyVal.str "x"] ++ PyVal.str "@lst" :: [PyVal.str "y"]) =
      ([("lst", File.mk " a \nb\n" 0)],
        Except.ok (["x"] ++ (pyReadlinesStripped (File.mk " a \nb\n" 0).content ++ ["y"]))) :=
  ⟨by decide, by decide, by decide, by decide,
    expand_list_file_amended _ [PyVal.str "x"] [PyVal.str "y"] "@lst"
      (File.mk " a \nb\n" 0) ["x"] ["y"] (by decide) (by decide)
      (by decide) (by decide)⟩

/-- C9: list-file expansion happens before any output is examined — if
the inputs contain an entry `"@f"` whose list file `f` cannot be opened
(and the entries before it expand without error), `need_rerun` fails
with that file's error for every output argument (normalized non-empty),
in particular even when some output path does not exist; it does not
return `true` for the missing output. -/
theorem need_rerun_list_file_error_first (s : FSState)
    (inputs outputs : Arg) (pre post : List PyVal) (i : Path)
    (preExp : List Path)
    (hsplit : ensure_list inputs = pre ++ PyVal.str i :: post)
    (hi : pyStartswith i "@" = true)
    (hmiss : fsLookup s (pyDrop1 i) = none)
    (hpre : expandInputs s pre = (s, Except.ok preExp))
    (houts : ensure_list outputs ≠ []) :
    need_rerun s inputs outputs =
      (s, Except.error (PyErr.fileNotFound (pyDrop1 i))) := by
  have hmid : expandInputs s (PyVal.str i :: post) =
      (s, Except.error (PyErr.fileNotFound (pyDrop1 i))) := by
    rw [expandInputs, hi]
    simp only [if_true, hmiss]
  have hexp : expandInputs s (ensure_list inputs) =
      (s, Except.error (PyErr.fileNotFound (pyDrop1 i))) := by
    rw [hsplit]
    exact expandInputs_append_error s pre (PyVal.str i :: post) preExp _ hpre hmid
  have hlen : ¬ (ensure_list outputs).length = 0 := by
    simpa [List.length_eq_zero] using houts
  rw [need_rerun, if_neg hlen]
  simp only [hexp]

/-- C9 witness: the list file and the single output are both missing;
the call fails with the list-file error rather than returning `true`. -/
theorem need_rerun_list_file_error_first_witness :
    ensure_list (Arg.seq [PyVal.str "@l"]) = [] ++ PyVal.str "@l" :: [] ∧
    pyStartswith "@l" "@" = true ∧
    fsLookup ([] : FSState) (pyDrop1 "@l") = none ∧
    expandInputs ([] : FSState) [] = (([] : FSState), Except.ok []) ∧
    ensure_list (Arg.seq [PyVal.str "o"]) ≠ [] ∧
    need_rerun ([] : FSState) (Arg.seq [PyVal.str "@l"]) (Arg.seq [PyVal.str "o"]) =
      (([] : FSState), Except.error (PyErr.fileNotFound (pyDrop1 "@l"))) :=
  ⟨rfl, by decide, rfl, rfl, by decide,
    need_rerun_list_file_error_first [] (Arg.seq [PyVal.str "@l"])
      (Arg.seq [PyVal.str "o"]) [] [] "@l" [] rfl (by decide) rfl rfl
      (by decide)⟩

theorem scanOutputs_none_of_missing (s : FSState) :
    ∀ (l : List PyVal) (acc : Option (Int × Path)),
      (∃ o ∈ l, pyExists s o = false) → scanOutputs s l acc = (s, none) := by
  intro l
  induction l with
  | nil =>
    intro acc h
    rcases h with ⟨o, ho, _⟩
    exact absurd ho (List.not_mem_nil o)
  | cons v rest ih =>
    intro acc h
    cases v with
    | int n => rfl
    | str o =>
      cases hf : fsLookup s o with
      | none => simp [scanOutputs, hf]
      | some f =>
        simp only [scanOutputs, hf]
        apply ih
        rcases h with ⟨o', ho', hne⟩
        rcases List.mem_cons.mp ho' with rfl | hmem
        · exfalso
          rw [pyExists, hf] at hne
          simp at hne
        · exact ⟨o', hmem, hne⟩

theorem updateOldest_fst (acc : Option (Int × Path)) (t : Int) (n : Path) :
    (updateOldest acc t n).map Prod.fst = ominUpd (acc.map Prod.fst) t := by
  cases acc with
  | none => rfl
  | some p =>
    obtain ⟨m, nm⟩ := p
    simp only [updateOldest, ominUpd, Option.map_some']
    split
    · next hlt =>
      rw [min_eq_right (le_of_lt hlt)]
      rfl
    · next hge =>
      rw [min_eq_left (le_of_not_lt hge)]
      rfl

theorem scanOutputs_min (s : FSState) :
    ∀ (l : List PyVal) (acc : Option (Int × Path)),
      (∀ o ∈ l, pyExists s o = true) →
      ∃ acc2, scanOutputs s l acc = (s, some acc2) ∧
        acc2.map Prod.fst = ominFold (acc.map Prod.fst) (mtimes s l) := by
  intro l
  induction l with
  | nil =>
    intro acc _
    exact ⟨acc, rfl, rfl⟩
  | cons v rest ih =>
    intro acc hex
    cases v with
    | int n =>
      have h := hex (PyVal.int n) (List.mem_cons_self _ _)
      rw [pyExists] at h
      simp at h
    | str o =>
      have hm := hex (PyVal.str o) (List.mem_cons_self _ _)
      rw [pyExists] at hm
      cases hf : fsLookup s o with
      | none => rw [hf] at hm; simp at hm
      | some f =>
        obtain ⟨acc2, h1, h2⟩ :=
          ih (updateOldest acc f.mtime o) (fun o' ho' => hex o' (List.mem_cons_of_mem _ ho'))
        refine ⟨acc2, ?_, ?_⟩
        · simp only [scanOutputs, hf]
          exact h1
        · rw [h2, updateOldest_fst]
          have hmt : mtimes s (PyVal.str o :: rest) = f.mtime :: mtimes s rest := by
            simp [mtimes, pyMtime, hf]
          rw [hmt]
          rfl

theorem ominFold_some (m0 : Int) (ts : List Int) :
    ominFold (some m0) ts = some (ts.foldl min m0) := by
  induction ts generalizing m0 with
  | nil => rfl
  | cons t ts ih =>
    show ominFold (ominUpd (some m0) t) ts = some ((t :: ts).foldl min m0)
    rw [show ominUpd (some m0) t = some (min m0 t) from rfl, ih]
    rfl

theorem foldl_min_le (ts : List Int) (m0 : Int) :
    ts.foldl min m0 ≤ m0 ∧ ∀ t ∈ ts, ts.foldl min m0 ≤ t := by
  induction ts generalizing m0 with
  | nil => exact ⟨le_refl _, by simp⟩
  | cons t ts ih =>
    obtain ⟨h1, h2⟩ := ih (min m0 t)
    refine ⟨h1.trans (min_le_left _ _), ?_⟩
    intro u hu
    rcases List.mem_cons.mp hu with rfl | hu'
    · exact h1.trans (min_le_right _ _)
    · exact h2 u hu'

theorem foldl_min_mem (ts : List Int) (m0 : Int) :
    ts.foldl min m0 = m0 ∨ ts.foldl min m0 ∈ ts := by
  induction ts generalizing m0 with
  | nil => left; rfl
  | cons t ts ih =>
    rw [List.foldl_cons]
    rcases ih (min m0 t) with h | h
    · rw [h]
      rcases min_choice m0 t with h' | h'
      · left; exact h'
      · right; rw [h']; exact List.mem_cons_self _ _
    · right; exact List.mem_cons_of_mem _ h

theorem mem_mtimes_iff (s : FSState) (l : List PyVal) (u : Int) :
    u ∈ mtimes s l ↔ ∃ o ∈ l, pyMtime s o = some u := by
  simp [mtimes, List.mem_filterMap]

theorem scanInputs_char (s : FSState) :
    ∀ (l : List Path) (acc : Option (Int × Path)),
      (∀ i ∈ l, (fsLookup s i).isSome = true) →
      ∃ b, scanInputs s l acc = (s, Except.ok b) ∧
        (b = true ↔ ∃ i ∈ l, ∃ f, fsLookup s i = some f ∧
          gtOldest f.mtime acc = true) := by
  intro l
  induction l with
  | nil =>
    intro acc _
    exact ⟨false, rfl, by simp⟩
  | cons i rest ih =>
    intro acc h
    have hi := h i (List.mem_cons_self _ _)
    cases hf : fsLookup s i with
    | none => rw [hf] at hi; simp at hi
    | some f =>
      by_cases hgt : gtOldest f.mtime acc = true
      · refine ⟨true, ?_, ?_⟩
        · simp only [scanInputs, hf]
          rw [if_pos hgt]
        · constructor
          · intro _
            exact ⟨i, List.mem_cons_self _ _, f, hf, hgt⟩
          · intro _
            rfl
      · obtain ⟨b, hb1, hb2⟩ := ih acc (fun j hj => h j (List.mem_cons_of_mem _ hj))
        refine ⟨b, ?_, ?_⟩
        · simp only [scanInputs, hf]
          rw [if_neg hgt]
          exact hb1
        · rw [hb2]
          constructor
          · rintro ⟨j, hj, fj, hfj, hgtj⟩
            exact ⟨j, List.mem_cons_of_mem _ hj, fj, hfj, hgtj⟩
          · rintro ⟨j, hj, fj, hfj, hgtj⟩
            rcases List.mem_cons.mp hj with rfl | hj'
            · rw [hf] at hfj
              cases hfj
              exact absurd hgtj hgt
            · exact ⟨j, hj', fj, hfj, hgtj⟩

/-- C1: over normalized non-empty outputs, with the inputs expanding
without error to `paths` and every expanded input path existing: if some
output does not exist, `need_rerun` returns `true`; otherwise, with `m`
the minimum modification timestamp over the outputs, `need_rerun`
returns `true` exactly when some input's modification timestamp is
strictly greater than `m`. -/
theorem need_rerun_policy (s : FSState) (inputs outputs : Arg)
    (paths : List Path)
    (houts : ensure_list outputs ≠ [])
    (hexp : expandInputs s (ensure_list inputs) = (s, Except.ok paths))
    (hins : ∀ i ∈ paths, (fsLookup s i).isSome = true) :
    ((∃ o ∈ ensure_list outputs, pyExists s o = false) →
        need_rerun s inputs outputs = (s, Except.ok true)) ∧
    (∀ m : Int, (∀ o ∈ ensure_list outputs, pyExists s o = true) →
        (∃ o ∈ ensure_list outputs, pyMtime s o = some m) →
        (∀ o ∈ ensure_list outputs, ∀ t, pyMtime s o = some t → m ≤ t) →
        (need_rerun s inputs outputs = (s, Except.ok true) ↔
          ∃ i ∈ paths, ∃ f, fsLookup s i = some f ∧ m < f.mtime)) := by
  have hlen : ¬ (ensure_list outputs).length = 0 := by
    simpa [List.length_eq_zero] using houts
  constructor
  · intro hmiss
    rw [need_rerun, if_neg hlen]
    simp only [hexp,
      scanOutputs_none_of_missing s (ensure_list outputs) none hmiss]
  · intro m hex hmem hleast
    obtain ⟨acc2, hacc, hfst⟩ := scanOutputs_min s (ensure_list outputs) none hex
    obtain ⟨o0, ho0, hm0⟩ := hmem
    have hmmem : m ∈ mtimes s (ensure_list outputs) :=
      (mem_mtimes_iff s (ensure_list outputs) m).mpr ⟨o0, ho0, hm0⟩
    cases hts : mtimes s (ensure_list outputs) with
    | nil =>
      rw [hts] at hmmem
      exact absurd hmmem (List.not_mem_nil m)
    | cons t ts =>
      have hfold : ominFold (none : Option Int) (t :: ts) =
          some (ts.foldl min t) := by
        show ominFold (ominUpd none t) ts = some (ts.foldl min t)
        exact ominFold_some t ts
      have hmm_mem : ts.foldl min t ∈ t :: ts := by
        rcases foldl_min_mem ts t with h | h
        · rw [h]; exact List.mem_cons_self _ _
        · exact List.mem_cons_of_mem _ h
      have hmm_le : ∀ u ∈ t :: ts, ts.foldl min t ≤ u := by
        obtain ⟨h1, h2⟩ := foldl_min_le ts t
        intro u hu
        rcases List.mem_cons.mp hu with rfl | hu'
        · exact h1
        · exact h2 u hu'
      have hm_eq : m = ts.foldl min t := by
        apply le_antisymm
        · have hin : ts.foldl min t ∈ mtimes s (ensure_list outputs) := by
            rw [hts]; exact hmm_mem
          obtain ⟨o1, ho1, hmo1⟩ :=
            (mem_mtimes_iff s (ensure_list outputs) _).mp hin
          exact hleast o1 ho1 _ hmo1
        · have hin : m ∈ t :: ts := by rw [← hts]; exact hmmem
          exact hmm_le m hin
      have hfst' : acc2.map Prod.fst = some m := by
        rw [hfst, hts]
        simp only [Option.map_none']
        rw [hfold, hm_eq]
      obtain ⟨m', nm, rfl⟩ : ∃ m' nm, acc2 = some (m', nm) := by
        cases acc2 with
        | none => simp at hfst'
        | some p => exact ⟨p.1, p.2, by rw [Prod.mk.eta]⟩
      have hm' : m' = m := by
        simpa using hfst'
      subst hm'
      obtain ⟨b, hb1, hb2⟩ := scanInputs_char s paths (some (m', nm)) hins
      rw [need_rerun, if_neg hlen]
      simp only [hexp, hacc, hb1]
      constructor
      · intro heq
        have hbt : b = true := by
          simpa using heq
        obtain ⟨i, hi, f, hf, hgt⟩ := hb2.mp hbt
        refine ⟨i, hi, f, hf, ?_⟩
        rw [gtOldest] at hgt
        simpa using hgt
      · rintro ⟨i, hi, f, hf, hlt⟩
        have hbt : b = true := hb2.mpr ⟨i, hi, f, hf, by rw [gtOldest]; simpa⟩
        rw [hbt]

/-- C1 witness: one input newer than the single output. -/
theorem need_rerun_policy_witness :
    ensure_list (Arg.seq [PyVal.str "o"]) ≠ [] ∧
    expandInputs [("i", File.mk "" 10), ("o", File.mk "" 5)]
        (ensure_list (Arg.seq [PyVal.str "i"])) =
      ([("i", File.mk "" 10), ("o", File.mk "" 5)], Except.ok ["i"]) ∧
    (∀ i ∈ ["i"],
      (fsLookup [("i", File.mk "" 10), ("o", File.mk "" 5)] i).isSome = true) ∧
    (((∃ o ∈ ensure_list (Arg.seq [PyVal.str "o"]),
        pyExists [("i", File.mk "" 10), ("o", File.mk "" 5)] o = false) →
        need_rerun [("i", File.mk "" 10), ("o", File.mk "" 5)]
            (Arg.seq [PyVal.str "i"]) (Arg.seq [PyVal.str "o"]) =
          ([("i", File.mk "" 10), ("o", File.mk "" 5)], Except.ok true)) ∧
    (∀ m : Int, (∀ o ∈ ensure_list (Arg.seq [PyVal.str "o"]),
          pyExists [("i", File.mk "" 10), ("o", File.mk "" 5)] o = true) →
        (∃ o ∈ ensure_list (Arg.seq [PyVal.str "o"]),
          pyMtime [("i", File.mk "" 10), ("o", File.mk "" 5)] o = some m) →
        (∀ o ∈ ensure_list (Arg.seq [PyVal.str "o"]), ∀ t,
          pyMtime [("i", File.mk "" 10), ("o", File.mk "" 5)] o = some t →
            m ≤ t) →
        (need_rerun [("i", File.mk "" 10), ("o", File.mk "" 5)]
              (Arg.seq [PyVal.str "i"]) (Arg.seq [PyVal.str "o"]) =
            ([("i", File.mk "" 10), ("o", File.mk "" 5)], Except.ok true) ↔
          ∃ i ∈ ["i"], ∃ f,
            fsLookup [("i", File.mk "" 10), ("o", File.mk "" 5)] i = some f ∧
              m < f.mtime))) :=
  ⟨by decide, by decide, by decide,
    need_rerun_policy [("i", File.mk "" 10), ("o", File.mk "" 5)]
      (Arg.seq [PyVal.str "i"]) (Arg.seq [PyVal.str "o"]) ["i"]
      (by decide) (by decide) (by decide)⟩

/-- C10: when every normalized output exists (and the output list is
non-empty) and the inputs normalize and expand to the empty sequence,
`need_rerun` returns `false`. -/
theorem need_rerun_no_inputs (s : FSState) (inputs outputs : Arg)
    (houts : ensure_list outputs ≠ [])
    (hex : ∀ o ∈ ensure_list outputs, pyExists s o = true)
    (hexp : expandInputs s (ensure_list inputs) = (s, Except.ok [])) :
    need_rerun s inputs outputs = (s, Except.ok false) := by
  have hlen : ¬ (ensure_list outputs).length = 0 := by
    simpa [List.length_eq_zero] using houts
  obtain ⟨acc2, hacc, -⟩ := scanOutputs_min s (ensure_list outputs) none hex
  rw [need_rerun, if_neg hlen]
  simp only [hexp, hacc]
  rfl

/-- C10 witness: empty input sequence against one existing output. -/
theorem need_rerun_no_inputs_witness :
    ensure_list (Arg.seq [PyVal.str "o"]) ≠ [] ∧
    (∀ o ∈ ensure_list (Arg.seq [PyVal.str "o"]),
      pyExists [("o", File.mk "" 0)] o = true) ∧
    expandInputs [("o", File.mk "" 0)] (ensure_list (Arg.seq [])) =
      ([("o", File.mk "" 0)], Except.ok []) ∧
    need_rerun [("o", File.mk "" 0)] (Arg.seq []) (Arg.seq [PyVal.str "o"]) =
      ([("o", File.mk "" 0)], Except.ok false) :=
  ⟨by decide, by decide, rfl,
    need_rerun_no_inputs [("o", File.mk "" 0)] (Arg.seq [])
      (Arg.seq [PyVal.str "o"]) (by decide) (by decide) rfl⟩

end AarchibaTools
